import Mathlib

/-!
Shallow embedding of the android-linkify-js link-gathering and
overlap-resolution engine (src/src/linkify.ts, src/src/log.ts and the
LinkSpec module), together with theorems checking the repository
specification against it.

Strings are modelled as `List Char` (one entry per UTF-16 code unit of the
JS strings of the source; all characters involved here are in the BMP).  Offsets
are modelled as `Int`, matching JS number arithmetic on array indices: in
particular `a.end - a.start` is genuine integer subtraction, as in JS.
The JS return value `false | LinkSpec[]` is modelled as
`Option (List LinkSpec)` with `none` standing for the `false` sentinel.
Diagnostics (`logError`) are modelled by returning the list of messages the
call reports, in order.
-/

namespace Linkify

/-- The `LinkSpec` interface: a link annotation `{url, start, end}`. -/
structure LinkSpec where
  url : List Char
  start : Int
  «end» : Int
deriving DecidableEq, Repr

/-- One regex match as produced by `pattern.exec`: `m[0]` and `m.index`. -/
structure RegexMatch where
  matched : List Char
  index : Nat
deriving DecidableEq, Repr

/-- The opaque Pattern Provider: the finite sequence of matches that the
repeated `pattern.exec(s)` loop yields for a text, in order. -/
abbrev Pattern := List Char → List RegexMatch

/-- The `MatchFilter` contract: `(s, start, end) → boolean`. -/
abbrev MatchF := List Char → Nat → Nat → Bool

/-- The `TransformFilter` contract: `(match, url) → string`. -/
abbrev TransformF := RegexMatch → List Char → List Char

/-- The comparator `c` defined inside `pruneOverlaps`: start ascending,
ties broken by end descending (returns -1, 1 or 0 as in the source). -/
def c (a b : LinkSpec) : Int :=
  if a.start < b.start then -1
  else if a.start > b.start then 1
  else if a.«end» < b.«end» then 1
  else if a.«end» > b.«end» then -1
  else 0

/-- The non-strict order induced by the comparator `c`; `links.sort(c)`
(a stable sort, as ECMAScript requires) sorts into this order. -/
def le (a b : LinkSpec) : Prop := c a b ≤ 0

instance : DecidableRel le := fun a b => inferInstanceAs (Decidable (c a b ≤ 0))

theorem le_iff (a b : LinkSpec) :
    le a b ↔ (a.start < b.start ∨ (a.start = b.start ∧ b.«end» ≤ a.«end»)) := by
  unfold le c
  split_ifs <;> simp <;> omega

instance : IsTotal LinkSpec le :=
  ⟨fun a b => by rw [le_iff, le_iff]; omega⟩

instance : IsTrans LinkSpec le :=
  ⟨fun a b d hab hbd => by rw [le_iff] at *; omega⟩

/-- The `while (i < len - 1)` sweep of `pruneOverlaps`, written as a
function of the part of the array from the current index `i` on (entries
before `i` are never re-examined by the loop, which never decrements `i`).
Emitting the head corresponds to `i++`; recursing without emitting
corresponds to `links.splice(remove, 1); len--; continue`. -/
def sweepLoop : List LinkSpec → List LinkSpec
  | [] => []
  | [a] => [a]
  | a :: b :: rest =>
    if a.start ≤ b.start ∧ a.«end» > b.start then
      if b.«end» ≤ a.«end» then sweepLoop (a :: rest)
      else if a.«end» - a.start > b.«end» - b.start then sweepLoop (a :: rest)
      else if a.«end» - a.start < b.«end» - b.start then sweepLoop (b :: rest)
      else a :: sweepLoop (b :: rest)
    else a :: sweepLoop (b :: rest)
termination_by l => l.length

/-- Function `pruneOverlaps`: sort with the comparator `c`, then run the sweep. -/
def pruneOverlaps (links : List LinkSpec) : List LinkSpec :=
  sweepLoop (List.insertionSort le links)

/-- The `pruneOverlaps` sweep with an explicit iteration budget, mirroring
the imperative loop state: `pre` holds (reversed) the entries at indices
below `i`, `rest` the entries from `i` on; the loop runs while
`i < len - 1`, i.e. while `rest` has at least two entries, and each
iteration consumes one unit of fuel.  `none` means the budget ran out. -/
def sweepFuel : Nat → List LinkSpec → List LinkSpec → Option (List LinkSpec)
  | 0, _, _ => none
  | _ + 1, pre, [] => some pre.reverse
  | _ + 1, pre, [a] => some (pre.reverse ++ [a])
  | n + 1, pre, a :: b :: rest =>
    if a.start ≤ b.start ∧ a.«end» > b.start then
      if b.«end» ≤ a.«end» then sweepFuel n pre (a :: rest)
      else if a.«end» - a.start > b.«end» - b.start then sweepFuel n pre (a :: rest)
      else if a.«end» - a.start < b.«end» - b.start then sweepFuel n pre (b :: rest)
      else sweepFuel n (a :: pre) (b :: rest)
    else sweepFuel n (a :: pre) (b :: rest)

/-- Spans separated left-to-right: `a` ends before `b` starts. -/
def separated (a b : LinkSpec) : Prop := a.«end» ≤ b.start

/-- The non-overlap relation of the spec: `a.end ≤ b.start OR b.end ≤ a.start`. -/
def disjointSpans (a b : LinkSpec) : Prop :=
  a.«end» ≤ b.start ∨ b.«end» ≤ a.start

/-- The case-d configuration of the sweep: partial overlap of two equal-length
spans, neither containing the other. -/
def eqLenPartialOverlap (a b : LinkSpec) : Prop :=
  a.start < b.start ∧ b.start < a.«end» ∧ a.«end» < b.«end» ∧
    a.«end» - a.start = b.«end» - b.start

/-- Neither orientation of a pair is a case-d configuration. -/
def noEqLenPartialOverlap (a b : LinkSpec) : Prop :=
  ¬ eqLenPartialOverlap a b ∧ ¬ eqLenPartialOverlap b a

instance (a b : LinkSpec) : Decidable (separated a b) :=
  inferInstanceAs (Decidable (a.«end» ≤ b.start))

instance (a b : LinkSpec) : Decidable (disjointSpans a b) :=
  inferInstanceAs (Decidable (a.«end» ≤ b.start ∨ b.«end» ≤ a.start))

instance (a b : LinkSpec) : Decidable (eqLenPartialOverlap a b) :=
  inferInstanceAs (Decidable (_ ∧ _ ∧ _ ∧ _))

instance (a b : LinkSpec) : Decidable (noEqLenPartialOverlap a b) :=
  inferInstanceAs (Decidable (_ ∧ _))

/-- Case-insensitive equality of two character lists: the model of
`localeCompare` with accent sensitivity returning 0 for the ASCII scheme
prefixes the code uses. -/
def ciEqual (xs ys : List Char) : Bool :=
  xs.map Char.toLower == ys.map Char.toLower

/-- The prefix loop inside `makeUrl`: the first prefix that is not longer
than the url and compares equal case-insensitively (the `continue` skips a
too-long prefix; `break` stops at the first hit). -/
def prefixScan (url : List Char) : List (List Char) → Option (List Char)
  | [] => none
  | p :: ps =>
    if url.length < p.length then prefixScan url ps
    else if ciEqual (url.take p.length) p then some p
    else prefixScan url ps

/-- Function `makeUrl`: optional transform, then prefix reconciliation.  The
case-sensitive recapitalization test (`localeCompare` with case
sensitivity returning nonzero) is modelled as exact inequality of the
character lists. -/
def makeUrl (url : List Char) (prefixes : List (List Char))
    (matcher : RegexMatch) (filter : Option TransformF) : List Char :=
  let url := match filter with
    | some f => f matcher url
    | none => url
  match prefixScan url prefixes with
  | some p =>
    let urlPrefixRange := url.take p.length
    if urlPrefixRange == p then url
    else p ++ url.drop p.length
  | none =>
    match prefixes with
    | [] => url
    | p :: _ => p ++ url

/-- Function `sUrlMatchFilter`: rejects a web-URL match immediately preceded by an
at-sign.  JS `s.charAt(start - 1)` is modelled by `List.get?`; out-of-range
access yields the empty string, which is not `'@'`. -/
def sUrlMatchFilter (s : List Char) (start _e : Nat) : Bool :=
  if start == 0 then true
  else if s.get? (start - 1) == some '@' then false
  else true

/-- Diagnostic messages logged by `containsUnsupportedCharacters`. -/
def msgU202C : String := "Unsupported character for applying links: u202C"

/-- See `msgU202C`. -/
def msgU202D : String := "Unsupported character for applying links: u202D"

/-- See `msgU202C`. -/
def msgU202E : String := "Unsupported character for applying links: u202E"

/-- Function `containsUnsupportedCharacters`, with the `logError` calls made
explicit as the second component: each early-`return true` branch logs
exactly one message.  `text.indexOf(the code point) !== -1` is `List.contains`. -/
def containsUnsupportedCharacters (text : List Char) : Bool × List String :=
  if text.contains '\u202C' then (true, [msgU202C])
  else if text.contains '\u202D' then (true, [msgU202D])
  else if text.contains '\u202E' then (true, [msgU202E])
  else (false, [])

/-- Function `gatherLinks`: push one `LinkSpec` per pattern match that the optional
match filter accepts; the new entries go after the ones already gathered. -/
def gatherLinks (links : List LinkSpec) (s : List Char) (pattern : Pattern)
    (schemes : List (List Char)) (matchFilter : Option MatchF)
    (transformFilter : Option TransformF) : List LinkSpec :=
  links ++ (pattern s).filterMap fun m =>
    let start := m.index
    let e := m.index + m.matched.length
    if (match matchFilter with
        | none => true
        | some f => f s start e) then
      some { url := makeUrl m.matched schemes m transformFilter,
             start := (start : Int), «end» := (e : Int) }
    else none

/-- Bit flag `WEB_URLS`. -/
def WEB_URLS : Nat := 0x01

/-- Bit flag `EMAIL_ADDRESSES`. -/
def EMAIL_ADDRESSES : Nat := 0x02

/-- Mask `ALL`. -/
def ALL : Nat := WEB_URLS ||| EMAIL_ADDRESSES

/-- Function `addAutoLinks`, parameterized by the two opaque patterns
(`AUTOLINK_WEB_URL`, `AUTOLINK_EMAIL_ADDRESS` live in the file
`patterns.ts`, which is outside the specified core — the spec treats them
as the opaque Pattern Provider).  Returns the JS result (`none` = `false`)
paired with the Diagnostics messages the call reports. -/
def addAutoLinks (webPattern emailPattern : Pattern) (text : List Char)
    (mask : Option Nat) : Option (List LinkSpec) × List String :=
  let mask := match mask with
    | none => ALL
    | some m => m
  let cu := containsUnsupportedCharacters text
  if cu.fst then (none, cu.snd)
  else if mask == 0 then (none, cu.snd)
  else
    let links : List LinkSpec := []
    let links := if mask &&& WEB_URLS != 0 then
        gatherLinks links text webPattern
          ["http://".toList, "https://".toList, "rtsp://".toList]
          (some sUrlMatchFilter) none
      else links
    let links := if mask &&& EMAIL_ADDRESSES != 0 then
        gatherLinks links text emailPattern ["mailto:".toList] none none
      else links
    let links := pruneOverlaps links
    if links.length == 0 then (none, cu.snd)
    else (some links, cu.snd)

/-- The part of `addLinks` after the unsupported-character guard: build
`schemesCopy` (lowercased default scheme first, then the lowercased extra
schemes) and turn every match the filter allows into a `LinkSpec`. -/
def addLinksGather (spannable : List Char) (pattern : Pattern)
    (defaultScheme : Option (List Char)) (schemes : Option (List (List Char)))
    (matchFilter : Option MatchF) (transformFilter : Option TransformF) :
    List LinkSpec :=
  let defaultScheme := match defaultScheme with
    | none => []
    | some d => d
  let schemes := match schemes with
    | none => []
    | some l => if l.length < 1 then [] else l
  let schemesCopy :=
    defaultScheme.map Char.toLower :: schemes.map (fun s => s.map Char.toLower)
  (pattern spannable).filterMap fun m =>
    let start := m.index
    let e := m.index + m.matched.length
    let allowed := match matchFilter with
      | none => true
      | some f => f spannable start e
    if allowed then
      some { url := makeUrl m.matched schemesCopy m transformFilter,
             start := (start : Int), «end» := (e : Int) }
    else none

/-- Function `addLinks`: the unsupported-character guard, then the gather loop; the
gathered list is returned as-is (also when it is empty). -/
def addLinks (spannable : List Char) (pattern : Pattern)
    (defaultScheme : Option (List Char)) (schemes : Option (List (List Char)))
    (matchFilter : Option MatchF) (transformFilter : Option TransformF) :
    Option (List LinkSpec) × List String :=
  let cu := containsUnsupportedCharacters spannable
  if cu.fst then (none, cu.snd)
  else
    (some (addLinksGather spannable pattern defaultScheme schemes
      matchFilter transformFilter), cu.snd)

/-- Function `addAutoLinks` threaded through the process-wide Diagnostics log
(`log.ts` keeps a settable handler; the accumulated message list is the
only state shared between successive calls). -/
def addAutoLinksSt (webPattern emailPattern : Pattern) (text : List Char)
    (mask : Option Nat) (log : List String) :
    Option (List LinkSpec) × List String :=
  let r := addAutoLinks webPattern emailPattern text mask
  (r.fst, log ++ r.snd)

theorem le_start {a b : LinkSpec} (h : le a b) : a.start ≤ b.start := by
  rw [le_iff] at h; omega

theorem sweepLoop_sublist (l : List LinkSpec) :
    List.Sublist (sweepLoop l) l := by
  induction l using sweepLoop.induct with
  | case1 => simp [sweepLoop]
  | case2 a => simp [sweepLoop]
  | case3 a b rest h1 h2 ih =>
    rw [sweepLoop, if_pos h1, if_pos h2]
    exact ih.trans ((List.sublist_cons_self b rest).cons₂ a)
  | case4 a b rest h1 h2 h3 ih =>
    rw [sweepLoop, if_pos h1, if_neg h2, if_pos h3]
    exact ih.trans ((List.sublist_cons_self b rest).cons₂ a)
  | case5 a b rest h1 h2 h3 h4 ih =>
    rw [sweepLoop, if_pos h1, if_neg h2, if_neg h3, if_pos h4]
    exact ih.trans (List.sublist_cons_self a (b :: rest))
  | case6 a b rest h1 h2 h3 h4 ih =>
    rw [sweepLoop, if_pos h1, if_neg h2, if_neg h3, if_neg h4]
    exact ih.cons₂ a
  | case7 a b rest h1 ih =>
    rw [sweepLoop, if_neg h1]
    exact ih.cons₂ a

theorem sweepLoop_pairwise_separated (l : List LinkSpec)
    (hs : List.Sorted le l) (hp : List.Pairwise noEqLenPartialOverlap l) :
    List.Pairwise separated (sweepLoop l) := by
  induction l using sweepLoop.induct with
  | case1 => simp [sweepLoop]
  | case2 a => simp [sweepLoop]
  | case3 a b rest h1 h2 ih =>
    rw [sweepLoop, if_pos h1, if_pos h2]
    have hsub := (List.sublist_cons_self b rest).cons₂ a
    exact ih (List.Pairwise.sublist hsub hs) (List.Pairwise.sublist hsub hp)
  | case4 a b rest h1 h2 h3 ih =>
    rw [sweepLoop, if_pos h1, if_neg h2, if_pos h3]
    have hsub := (List.sublist_cons_self b rest).cons₂ a
    exact ih (List.Pairwise.sublist hsub hs) (List.Pairwise.sublist hsub hp)
  | case5 a b rest h1 h2 h3 h4 ih =>
    rw [sweepLoop, if_pos h1, if_neg h2, if_neg h3, if_pos h4]
    have hsub := List.sublist_cons_self a (b :: rest)
    exact ih (List.Pairwise.sublist hsub hs) (List.Pairwise.sublist hsub hp)
  | case6 a b rest h1 h2 h3 h4 ih =>
    exfalso
    have hab : noEqLenPartialOverlap a b :=
      (List.pairwise_cons.mp hp).1 b (List.mem_cons_self b rest)
    apply hab.1
    unfold eqLenPartialOverlap
    omega
  | case7 a b rest h1 ih =>
    rw [sweepLoop, if_neg h1]
    have hsub := List.sublist_cons_self a (b :: rest)
    refine List.pairwise_cons.mpr
      ⟨?_, ih (List.Pairwise.sublist hsub hs) (List.Pairwise.sublist hsub hp)⟩
    intro x hx
    have hxmem : x ∈ b :: rest := (sweepLoop_sublist (b :: rest)).subset hx
    have hab : le a b := List.rel_of_sorted_cons hs b (List.mem_cons_self b rest)
    have hstart : a.start ≤ b.start := le_start hab
    have hend : a.«end» ≤ b.start := by
      by_contra hcon
      exact h1 ⟨hstart, by omega⟩
    rcases List.mem_cons.mp hxmem with rfl | hxrest
    · exact hend
    · have hbx : le b x :=
        List.rel_of_sorted_cons (List.Pairwise.sublist hsub hs) x hxrest
      have := le_start hbx
      unfold separated
      omega

theorem sweepLoop_eq_self (l : List LinkSpec)
    (hp : List.Pairwise separated l) : sweepLoop l = l := by
  induction l using sweepLoop.induct with
  | case1 => simp [sweepLoop]
  | case2 a => simp [sweepLoop]
  | case3 a b rest h1 h2 ih =>
    exact absurd ((List.pairwise_cons.mp hp).1 b (List.mem_cons_self b rest))
      (by unfold separated; omega)
  | case4 a b rest h1 h2 h3 ih =>
    exact absurd ((List.pairwise_cons.mp hp).1 b (List.mem_cons_self b rest))
      (by unfold separated; omega)
  | case5 a b rest h1 h2 h3 h4 ih =>
    exact absurd ((List.pairwise_cons.mp hp).1 b (List.mem_cons_self b rest))
      (by unfold separated; omega)
  | case6 a b rest h1 h2 h3 h4 ih =>
    exact absurd ((List.pairwise_cons.mp hp).1 b (List.mem_cons_self b rest))
      (by unfold separated; omega)
  | case7 a b rest h1 ih =>
    rw [sweepLoop, if_neg h1]
    rw [ih (List.Pairwise.sublist (List.sublist_cons_self a (b :: rest)) hp)]

theorem pairwise_separated_of_disjoint (l : List LinkSpec)
    (hs : List.Sorted le l) (hv : ∀ x ∈ l, x.start < x.«end»)
    (hd : List.Pairwise disjointSpans l) : List.Pairwise separated l := by
  induction l with
  | nil => simp
  | cons a tl ih =>
    rw [List.pairwise_cons] at hd ⊢
    refine ⟨?_, ih (List.Pairwise.sublist (List.sublist_cons_self a tl) hs)
      (fun x hx => hv x (List.mem_cons_of_mem a hx))
      hd.2⟩
    intro x hx
    have hax : le a x := List.rel_of_sorted_cons hs x hx
    have h1 := le_start hax
    have h2 := hv x (List.mem_cons_of_mem a hx)
    rcases hd.1 x hx with h | h
    · exact h
    · exact absurd h (by unfold separated at *; omega)

theorem sweepFuel_eq : ∀ (n : Nat) (pre rest : List LinkSpec),
    rest.length + 1 ≤ n →
    sweepFuel n pre rest = some (pre.reverse ++ sweepLoop rest) := by
  intro n
  induction n with
  | zero => intro pre rest h; omega
  | succ n ih =>
    intro pre rest h
    match rest with
    | [] => simp [sweepFuel, sweepLoop]
    | [a] => simp [sweepFuel, sweepLoop]
    | a :: b :: rest =>
      have hlen : ∀ x : LinkSpec, ∀ l : List LinkSpec,
          (x :: l).length + 1 ≤ n + 1 → l.length + 1 + 1 ≤ n + 1 := by
        intro x l hx; simp [List.length_cons] at hx ⊢; omega
      have hr : (a :: rest).length + 1 ≤ n := by
        simp [List.length_cons] at h ⊢; omega
      have hr' : (b :: rest).length + 1 ≤ n := by
        simp [List.length_cons] at h ⊢; omega
      rw [sweepFuel, sweepLoop]
      split_ifs with h1 h2 h3 h4
      · rw [ih pre (a :: rest) hr]
      · rw [ih pre (a :: rest) hr]
      · rw [ih pre (b :: rest) hr']
      · rw [ih (a :: pre) (b :: rest) hr']
        simp [List.reverse_cons, List.append_assoc]
      · rw [ih (a :: pre) (b :: rest) hr']
        simp [List.reverse_cons, List.append_assoc]

/-- Evaluation lemma: `sweepLoop` (defined by well-founded recursion, which the kernel does
not unfold) computed through the structurally recursive `sweepFuel`, for
evaluation on concrete lists. -/
theorem sweepLoop_eval (l : List LinkSpec) :
    sweepLoop l = (sweepFuel (l.length + 1) [] l).getD [] := by
  rw [sweepFuel_eq (l.length + 1) [] l (by omega)]
  simp

/-- Evaluation lemma: `pruneOverlaps` computed through `sweepFuel`. -/
theorem pruneOverlaps_eval (L : List LinkSpec) :
    pruneOverlaps L =
      (sweepFuel (L.length + 1) [] (List.insertionSort le L)).getD [] := by
  have hlen : (List.insertionSort le L).length = L.length :=
    (List.perm_insertionSort le L).length_eq
  rw [pruneOverlaps, sweepLoop_eval, hlen]

/-- C1 (counterexample): the claim "after pruneOverlaps, no two distinct
surviving annotations intersect" fails: on the two-element list with spans
[0,10) and [5,15) — a conflicting pair of equal length with neither span
contained in the other — `pruneOverlaps` keeps both, and they intersect. -/
theorem pruneOverlaps_overlap_counterexample :
    pruneOverlaps [⟨[], 0, 10⟩, ⟨[], 5, 15⟩] = [⟨[], 0, 10⟩, ⟨[], 5, 15⟩]
    ∧ ¬ disjointSpans ⟨[], 0, 10⟩ ⟨[], 5, 15⟩ := by
  refine ⟨?_, by decide⟩
  rw [pruneOverlaps_eval]
  decide

/-- C1 (amended): after `pruneOverlaps`, no two distinct surviving
annotations have intersecting spans, provided no two annotations of the
input form an equal-length partial-overlap pair (case d of the sweep); in
general such pairs can survive overlapping. -/
theorem pruneOverlaps_pairwise_disjoint (L : List LinkSpec)
    (h : List.Pairwise noEqLenPartialOverlap L) :
    List.Pairwise disjointSpans (pruneOverlaps L) := by
  have hsym : ∀ {x y : LinkSpec},
      noEqLenPartialOverlap x y → noEqLenPartialOverlap y x :=
    fun hxy => ⟨hxy.2, hxy.1⟩
  have h' : List.Pairwise noEqLenPartialOverlap (List.insertionSort le L) :=
    (List.Perm.pairwise_iff hsym (List.perm_insertionSort le L)).mpr h
  have hsep := sweepLoop_pairwise_separated (List.insertionSort le L)
    (List.sorted_insertionSort le L) h'
  exact hsep.imp fun hx => Or.inl hx

/-- C1 (witness): on the list with spans [0,10) and [5,8) the hypothesis
holds concretely and the pruned output is pairwise disjoint. -/
theorem pruneOverlaps_pairwise_disjoint_witness :
    List.Pairwise disjointSpans
      (pruneOverlaps [⟨[], 0, 10⟩, ⟨[], 5, 8⟩]) :=
  pruneOverlaps_pairwise_disjoint [⟨[], 0, 10⟩, ⟨[], 5, 8⟩] (by decide)

/-- C4: `pruneOverlaps` is exactly "stable-sort by the comparator (start
ascending, ties by end descending), then sweep adjacent pairs": for a
conflicting adjacent pair `(a, b)` the sweep drops `b` on containment
(`b.end ≤ a.end`) or when `a` is strictly longer, drops `a` when `b` is
strictly longer (re-examining at the same index in each case), and keeps
both — merely advancing — when the spans have equal length and neither
contains the other; non-conflicting pairs just advance. -/
theorem pruneOverlaps_algorithm :
    (∀ L, pruneOverlaps L = sweepLoop (List.insertionSort le L))
    ∧ (∀ L, List.Sorted le (List.insertionSort le L)
        ∧ (List.insertionSort le L).Perm L)
    ∧ (∀ a b : LinkSpec, le a b ↔
        (a.start < b.start ∨ (a.start = b.start ∧ b.«end» ≤ a.«end»)))
    ∧ (∀ (a b : LinkSpec) (rest : List LinkSpec),
        a.start ≤ b.start → a.«end» > b.start → b.«end» ≤ a.«end» →
        sweepLoop (a :: b :: rest) = sweepLoop (a :: rest))
    ∧ (∀ (a b : LinkSpec) (rest : List LinkSpec),
        a.start ≤ b.start → a.«end» > b.start → ¬ b.«end» ≤ a.«end» →
        a.«end» - a.start > b.«end» - b.start →
        sweepLoop (a :: b :: rest) = sweepLoop (a :: rest))
    ∧ (∀ (a b : LinkSpec) (rest : List LinkSpec),
        a.start ≤ b.start → a.«end» > b.start → ¬ b.«end» ≤ a.«end» →
        a.«end» - a.start < b.«end» - b.start →
        sweepLoop (a :: b :: rest) = sweepLoop (b :: rest))
    ∧ (∀ (a b : LinkSpec) (rest : List LinkSpec),
        a.start ≤ b.start → a.«end» > b.start → ¬ b.«end» ≤ a.«end» →
        a.«end» - a.start = b.«end» - b.start →
        sweepLoop (a :: b :: rest) = a :: sweepLoop (b :: rest))
    ∧ (∀ (a b : LinkSpec) (rest : List LinkSpec),
        ¬ (a.start ≤ b.start ∧ a.«end» > b.start) →
        sweepLoop (a :: b :: rest) = a :: sweepLoop (b :: rest)) := by
  refine ⟨fun L => rfl,
    fun L => ⟨List.sorted_insertionSort le L, List.perm_insertionSort le L⟩,
    le_iff, ?_, ?_, ?_, ?_, ?_⟩
  · intro a b rest h1 h2 h3
    rw [sweepLoop, if_pos ⟨h1, h2⟩, if_pos h3]
  · intro a b rest h1 h2 h3 h4
    rw [sweepLoop, if_pos ⟨h1, h2⟩, if_neg h3, if_pos h4]
  · intro a b rest h1 h2 h3 h4
    rw [sweepLoop, if_pos ⟨h1, h2⟩, if_neg h3, if_neg (by omega), if_pos h4]
  · intro a b rest h1 h2 h3 h4
    rw [sweepLoop, if_pos ⟨h1, h2⟩, if_neg h3, if_neg (by omega),
      if_neg (by omega)]
  · intro a b rest h1
    rw [sweepLoop, if_neg h1]

/-- C4 (witness): the containment rule at spans [0,10), [5,8) and the
equal-length keep-both rule at spans [0,10), [5,15), concretely. -/
theorem pruneOverlaps_algorithm_witness :
    sweepLoop [⟨[], 0, 10⟩, ⟨[], 5, 8⟩] = sweepLoop [(⟨[], 0, 10⟩ : LinkSpec)]
    ∧ sweepLoop [⟨[], 0, 10⟩, ⟨[], 5, 15⟩]
      = (⟨[], 0, 10⟩ : LinkSpec) :: sweepLoop [(⟨[], 5, 15⟩ : LinkSpec)] := by
  constructor
  · exact pruneOverlaps_algorithm.2.2.2.1 ⟨[], 0, 10⟩ ⟨[], 5, 8⟩ []
      (by decide) (by decide) (by decide)
  · exact pruneOverlaps_algorithm.2.2.2.2.2.2.1 ⟨[], 0, 10⟩ ⟨[], 5, 15⟩ []
      (by decide) (by decide) (by decide) (by decide)

/-- C5 (counterexample): `pruneOverlaps` is not idempotent.  On spans
[0,10), [5,15), [6,20) the first run removes only [5,15) (the equal-length
pair [0,10)/[5,15) advances the sweep, and after [5,15) is removed the new
adjacent pair [0,10)/[6,20) is behind the index and never re-examined);
the second run then removes [0,10). -/
theorem pruneOverlaps_not_idempotent_counterexample :
    pruneOverlaps (pruneOverlaps [⟨[], 0, 10⟩, ⟨[], 5, 15⟩, ⟨[], 6, 20⟩])
      ≠ pruneOverlaps [⟨[], 0, 10⟩, ⟨[], 5, 15⟩, ⟨[], 6, 20⟩] := by
  simp only [pruneOverlaps_eval]
  decide

/-- C5 (amended): re-running `pruneOverlaps` on an already-pruned list
leaves it unchanged provided the spans are well-formed (`start < end`) and
the pruned list is actually conflict-free (pairwise non-overlapping) —
which the first run can fail to establish only through the equal-length
partial-overlap quirk. -/
theorem pruneOverlaps_idempotent_on_disjoint (L : List LinkSpec)
    (hv : ∀ x ∈ L, x.start < x.«end»)
    (hd : List.Pairwise disjointSpans (pruneOverlaps L)) :
    pruneOverlaps (pruneOverlaps L) = pruneOverlaps L := by
  have hsorted : List.Sorted le (pruneOverlaps L) :=
    List.Pairwise.sublist (sweepLoop_sublist (List.insertionSort le L))
      (List.sorted_insertionSort le L)
  have hvout : ∀ x ∈ pruneOverlaps L, x.start < x.«end» := by
    intro x hx
    have hx' : x ∈ List.insertionSort le L :=
      (sweepLoop_sublist (List.insertionSort le L)).subset hx
    exact hv x ((List.perm_insertionSort le L).mem_iff.mp hx')
  have hsep := pairwise_separated_of_disjoint (pruneOverlaps L) hsorted hvout hd
  conv_lhs => rw [pruneOverlaps]
  rw [hsorted.insertionSort_eq]
  exact sweepLoop_eq_self (pruneOverlaps L) hsep

/-- C5 (witness): concrete idempotence on the list with spans [0,10),
[5,8), whose pruned output [0,10) is conflict-free. -/
theorem pruneOverlaps_idempotent_on_disjoint_witness :
    pruneOverlaps (pruneOverlaps [⟨[], 0, 10⟩, ⟨[], 5, 8⟩])
      = pruneOverlaps [⟨[], 0, 10⟩, ⟨[], 5, 8⟩] :=
  pruneOverlaps_idempotent_on_disjoint [⟨[], 0, 10⟩, ⟨[], 5, 8⟩]
    (by decide) (by rw [pruneOverlaps_eval]; decide)

/-- C9: the sweep of `pruneOverlaps` terminates on every finite list:
run with an explicit iteration budget of `length + 1` (each iteration
either deletes one element without advancing the index or advances the
index past one element, so the index reaches `length − 1` after at most
`length` iterations), the loop halts and computes the result of the sweep. -/
theorem sweepFuel_reaches_sweepLoop (L : List LinkSpec) :
    sweepFuel (L.length + 1) [] (List.insertionSort le L)
      = some (pruneOverlaps L) := by
  have hlen : (List.insertionSort le L).length = L.length :=
    (List.perm_insertionSort le L).length_eq
  have h := sweepFuel_eq (L.length + 1) [] (List.insertionSort le L)
    (by omega)
  rw [h]
  rfl

/-- The prefix `p` matches the leading characters of `url`
case-insensitively (in particular `url` is at least as long as `p`). -/
def prefixCIMatches (url p : List Char) : Prop :=
  p.length ≤ url.length ∧ ciEqual (url.take p.length) p = true

instance (url p : List Char) : Decidable (prefixCIMatches url p) :=
  inferInstanceAs (Decidable (_ ∧ _))

theorem prefixScan_eq_none (url : List Char) (ps : List (List Char))
    (h : ∀ q ∈ ps, ¬ prefixCIMatches url q) : prefixScan url ps = none := by
  induction ps with
  | nil => rfl
  | cons p ps ih =>
    rw [prefixScan]
    split_ifs with h1 h2
    · exact ih fun q hq => h q (List.mem_cons_of_mem p hq)
    · exact absurd ⟨by omega, h2⟩ (h p (List.mem_cons_self p ps))
    · exact ih fun q hq => h q (List.mem_cons_of_mem p hq)

theorem prefixScan_first (url : List Char) (pre : List (List Char))
    (q : List Char) (post : List (List Char))
    (hpre : ∀ r ∈ pre, ¬ prefixCIMatches url r) (hq : prefixCIMatches url q) :
    prefixScan url (pre ++ q :: post) = some q := by
  induction pre with
  | nil =>
    rw [List.nil_append, prefixScan, if_neg (by have := hq.1; omega),
      if_pos hq.2]
  | cons p pre ih =>
    rw [List.cons_append, prefixScan]
    split_ifs with h1 h2
    · exact ih fun r hr => hpre r (List.mem_cons_of_mem p hr)
    · exact absurd ⟨by omega, h2⟩ (hpre p (List.mem_cons_self p pre))
    · exact ih fun r hr => hpre r (List.mem_cons_of_mem p hr)

/-- C6: prefix reconciliation in `makeUrl` (here with no transform filter,
so the matched text enters the prefix scan unchanged): an empty prefix
list returns the text unchanged; if no prefix matches case-insensitively
the first prefix is prepended; the first case-insensitive match `q` wins
and the result carries the canonical casing of `q` followed by the rest of the
text (when the casing already agrees this replacement is the identity). -/
theorem makeUrl_prefix_reconciliation (url : List Char) (m : RegexMatch) :
    (makeUrl url [] m none = url)
    ∧ (∀ (p : List Char) (ps : List (List Char)),
        (∀ q ∈ p :: ps, ¬ prefixCIMatches url q) →
        makeUrl url (p :: ps) m none = p ++ url)
    ∧ (∀ (pre : List (List Char)) (q : List Char) (post : List (List Char)),
        (∀ r ∈ pre, ¬ prefixCIMatches url r) → prefixCIMatches url q →
        makeUrl url (pre ++ q :: post) m none = q ++ url.drop q.length) := by
  refine ⟨rfl, ?_, ?_⟩
  · intro p ps h
    unfold makeUrl
    dsimp only
    rw [prefixScan_eq_none url (p :: ps) h]
  · intro pre q post hpre hq
    unfold makeUrl
    dsimp only
    rw [prefixScan_first url pre q post hpre hq]
    by_cases heq : url.take q.length = q
    · simp only [heq, beq_self_eq_true, if_pos]
      conv_lhs => rw [← List.take_append_drop q.length url, heq]
    · simp [heq]

/-- C6 (witness): `HTTP://x` against the prefix list
`["https://", "http://"]` — the first prefix fails case-insensitively, the
second matches, and its canonical casing replaces the matched leading
characters. -/
theorem makeUrl_prefix_reconciliation_witness :
    makeUrl "HTTP://x".toList ["https://".toList, "http://".toList]
      ⟨[], 0⟩ none = "http://x".toList := by
  have h : makeUrl "HTTP://x".toList ["https://".toList, "http://".toList]
      ⟨[], 0⟩ none
      = "http://".toList ++ "HTTP://x".toList.drop "http://".toList.length :=
    (makeUrl_prefix_reconciliation "HTTP://x".toList ⟨[], 0⟩).2.2
      ["https://".toList] "http://".toList [] (by decide) (by decide)
  rw [h]
  decide

/-- C7: the built-in web-URL match filter returns `false` exactly when the
match does not begin the text and the character immediately before it is
an at-sign; it accepts every other position, including `start == 0`. -/
theorem sUrlMatchFilter_false_iff (s : List Char) (start e : Nat) :
    sUrlMatchFilter s start e = false ↔
      (0 < start ∧ s.get? (start - 1) = some '@') := by
  unfold sUrlMatchFilter
  split_ifs with h1 h2 <;> simp_all
  omega

/-- C2 (counterexample): the claim that `addLinks` applies no
bidi-control-character guard fails: on the one-character string U+202C it
returns the "none found" sentinel without running the gatherer, while the
same call on a clean string returns the gathered (here empty) list. -/
theorem addLinks_no_bidi_guard_counterexample :
    (addLinks ['\u202C'] (fun _ => []) none none none none).fst = none
    ∧ (addLinks ['a'] (fun _ => []) none none none none).fst = some [] := by
  constructor <;> rfl

/-- C2 (amended): `addLinks` applies the same bidi guard as
`addAutoLinks`: when the text contains U+202C, U+202D or U+202E it returns
the "none found" sentinel (with the diagnostic of that check); otherwise it
runs the gatherer + canonicalization pipeline and returns the gathered
annotation list. -/
theorem addLinks_has_bidi_guard (s : List Char) (pattern : Pattern)
    (ds : Option (List Char)) (schemes : Option (List (List Char)))
    (mf : Option MatchF) (tf : Option TransformF) :
    ((containsUnsupportedCharacters s).fst = true →
      addLinks s pattern ds schemes mf tf =
        (none, (containsUnsupportedCharacters s).snd))
    ∧ ((containsUnsupportedCharacters s).fst = false →
      addLinks s pattern ds schemes mf tf =
        (some (addLinksGather s pattern ds schemes mf tf),
          (containsUnsupportedCharacters s).snd)) := by
  unfold addLinks
  constructor <;> intro h <;> simp [h]

/-- C2 (witness): the amended claim at the concrete strings U+202E and
"b". -/
theorem addLinks_has_bidi_guard_witness :
    addLinks ['\u202E'] (fun _ => []) none none none none = (none, [msgU202E])
    ∧ addLinks ['b'] (fun _ => []) none none none none = (some [], []) := by
  constructor
  · have h := (addLinks_has_bidi_guard ['\u202E'] (fun _ => [])
      none none none none).1 (by decide)
    rw [h]; rfl
  · have h := (addLinks_has_bidi_guard ['b'] (fun _ => [])
      none none none none).2 (by decide)
    rw [h]; rfl

/-- C3 (counterexample): the claim that each offending bidi code point in
the text is reported once fails: for the text U+202C U+202D the engine
reports only the U+202C message — the U+202D message is absent although
U+202D occurs in the text. -/
theorem addAutoLinks_per_codepoint_report_counterexample :
    (addAutoLinks (fun _ => []) (fun _ => []) ['\u202C', '\u202D'] none).snd
      = [msgU202C]
    ∧ msgU202D ∉
      (addAutoLinks (fun _ => []) (fun _ => []) ['\u202C', '\u202D'] none).snd
    ∧ ('\u202D' ∈ ['\u202C', '\u202D']) := by
  refine ⟨rfl, ?_, by decide⟩
  intro hmem
  rw [show (addAutoLinks (fun _ => []) (fun _ => [])
    ['\u202C', '\u202D'] none).snd = [msgU202C] from rfl] at hmem
  exact absurd (List.mem_singleton.mp hmem) (by decide)

/-- C3 (amended): for every text containing one of U+202C, U+202D, U+202E,
`addAutoLinks` returns the "none found" sentinel without gathering any
links, and exactly one Diagnostics report is issued — for the first code
point, in the fixed check order U+202C, U+202D, U+202E, that occurs in the
text (not one report per occurring code point). -/
theorem addAutoLinks_bidi_first_report (wp ep : Pattern) (text : List Char)
    (mask : Option Nat)
    (h : text.contains '\u202C' = true ∨ text.contains '\u202D' = true
      ∨ text.contains '\u202E' = true) :
    addAutoLinks wp ep text mask =
      (none, [if text.contains '\u202C' then msgU202C
              else if text.contains '\u202D' then msgU202D
              else msgU202E]) := by
  unfold addAutoLinks containsUnsupportedCharacters
  rcases h with h | h | h <;>
    by_cases h1 : text.contains '\u202C' <;>
    by_cases h2 : text.contains '\u202D' <;>
    simp_all

/-- C3 (witness): the amended claim at the concrete text U+202D. -/
theorem addAutoLinks_bidi_first_report_witness :
    addAutoLinks (fun _ => []) (fun _ => []) ['\u202D'] none
      = (none, [msgU202D]) := by
  have h := addAutoLinks_bidi_first_report (fun _ => []) (fun _ => [])
    ['\u202D'] none (Or.inr (Or.inl (by decide)))
  rw [h]
  decide

/-- C8: the engine is deterministic.  The only state shared between calls
is the process-wide Diagnostics log; with that log threaded explicitly,
two successive `addAutoLinks` calls with the same text, mask, and Pattern
Provider return the same value (sentinel or identical annotation list),
and the second call appends exactly the same diagnostic messages to the
log as the first. -/
theorem addAutoLinks_deterministic (wp ep : Pattern) (text : List Char)
    (mask : Option Nat) (log : List String) :
    (addAutoLinksSt wp ep text mask log).fst
        = (addAutoLinksSt wp ep text mask
            (addAutoLinksSt wp ep text mask log).snd).fst
    ∧ ((addAutoLinksSt wp ep text mask
          (addAutoLinksSt wp ep text mask log).snd).snd).drop
          (addAutoLinksSt wp ep text mask log).snd.length
        = (addAutoLinksSt wp ep text mask log).snd.drop log.length := by
  unfold addAutoLinksSt
  dsimp only
  exact ⟨rfl, by rw [List.drop_left, List.drop_left]⟩

/-- C10: a `false` return from `addLinks` occurs exactly for text
containing a disallowed bidi control character; in every other case the
gathered array is returned as-is — in particular, "no accepted matches"
yields an empty array, never the sentinel. -/
theorem addLinks_sentinel_iff_bidi :
    (∀ (s : List Char) (pattern : Pattern) (ds : Option (List Char))
      (schemes : Option (List (List Char))) (mf : Option MatchF)
      (tf : Option TransformF),
      ((addLinks s pattern ds schemes mf tf).fst = none ↔
        (containsUnsupportedCharacters s).fst = true))
    ∧ (addLinks ['x'] (fun _ => []) none none none none).fst = some [] := by
  constructor
  · intro s pattern ds schemes mf tf
    unfold addLinks
    by_cases h : (containsUnsupportedCharacters s).fst <;> simp [h]
  · rfl

end Linkify
